import Mathlib

/-!
Verification of the `gb` HTTP benchmarking tool (gb.go) against its
natural-language specification.

Shallow embedding conventions:
* Go `int64` counters that are only ever incremented or accumulate
  nonnegative read counts (`req`, `err`, `rerr`, `bytes`) are modelled as `ℕ`
  (no subtraction or overflow occurs in the source at reachable scales).
* Go counter maps `map[int]int64` (`code`, `hist`), which are only mutated by
  `m[k]++` and merged by `m[k] += v`, are modelled as the multiset of recorded
  keys (`Multiset Int`): the map's value at `k` is the multiplicity of `k`,
  key-union merge with added counts is multiset addition.
* Go `float64` arithmetic in the unit-scaling report helpers is modelled with
  exact rationals (`ℚ`); the divisions involved are by constant bases.
* Fallible operations (indexing a unit table out of range, integer division
  by zero) return `Option`/`Except`, `none` standing for a runtime panic.
-/

namespace GB

/-- `stats` (gb.go lines 20-27): per-worker statistics.  `code` and `hist`
model the Go counter maps as multisets of recorded keys. -/
@[ext]
structure Stats where
  req : ℕ
  err : ℕ
  rerr : ℕ
  bytes : ℕ
  code : Multiset Int
  hist : Multiset Int
deriving DecidableEq

/-- `newStats` (gb.go lines 35-41): zeroed statistics with empty maps. -/
def newStats : Stats :=
  { req := 0, err := 0, rerr := 0, bytes := 0, code := 0, hist := 0 }

/-- Environment-supplied outcome of one loop iteration of `bench`
(gb.go lines 77-107): either `client.Do` fails (`connErr`, transport error,
with the wall-clock milliseconds the attempt took), or it returns a response
with a status code, a sequence of body-read chunk sizes, a flag telling
whether the final read error was something other than `io.EOF`, and the
measured round-trip milliseconds. -/
inductive Outcome where
  | connErr (lat : Int)
  | success (status : Int) (chunks : List ℕ) (readFail : Bool) (lat : Int)
deriving DecidableEq

/-- `true` iff the iteration's dispatch failed (`client.Do` returned an
error, gb.go line 81). -/
def Outcome.isConnErr : Outcome → Bool
  | .connErr _ => true
  | .success _ _ _ _ => false

/-- `true` iff the body read ended with an error other than `io.EOF`
(gb.go line 96). -/
def Outcome.isReadErr : Outcome → Bool
  | .connErr _ => false
  | .success _ _ readFail _ => readFail

/-- The status code recorded for the iteration, if the dispatch succeeded
(gb.go line 85). -/
def Outcome.status? : Outcome → Option Int
  | .connErr _ => none
  | .success st _ _ _ => some st

/-- The measured whole-millisecond latency of the iteration
(gb.go lines 104-106): recorded for every iteration. -/
def Outcome.latency : Outcome → Int
  | .connErr lat => lat
  | .success _ _ _ lat => lat

/-- One iteration of the `bench` loop body (gb.go lines 77-107): increment
`req`; on dispatch failure increment `err`; on success record the status
code, accumulate the body bytes, and increment `rerr` when the read failed;
in either case (line 107 is outside the if/else) record the latency bucket. -/
def iterate (s : Stats) (o : Outcome) : Stats :=
  match o with
  | .connErr lat =>
      { s with req := s.req + 1, err := s.err + 1, hist := s.hist + {lat} }
  | .success st chunks readFail lat =>
      { s with
        req := s.req + 1,
        code := s.code + {st},
        bytes := s.bytes + chunks.sum,
        rerr := if readFail then s.rerr + 1 else s.rerr,
        hist := s.hist + {lat} }

/-- `bench` (gb.go lines 43-118) run to completion on a finite schedule of
iteration outcomes: the fold of the loop body over the outcomes, starting
from `newStats`. -/
def bench (outcomes : List Outcome) : Stats :=
  outcomes.foldl iterate newStats

/-- The `bench` loop with the cooperative stop signal made explicit
(gb.go lines 65-115): the `done` check happens only at the head of each
iteration, before `s.req++` and the dispatch.  `k` is the iteration index at
which the worker first observes the closed `done` channel; an iteration that
has started always runs its body to completion. -/
def benchLoop (s : Stats) : ℕ → List Outcome → Stats
  | 0, _ => s
  | _ + 1, [] => s
  | k + 1, o :: rest => benchLoop (iterate s o) k rest

/-- `bench` under a stop signal first observed at iteration boundary `k`. -/
def benchRun (k : ℕ) (outcomes : List Outcome) : Stats :=
  benchLoop newStats k outcomes

/-- `collectStats`'s loop body (gb.go lines 321-330): add every scalar field
and merge both counter maps by key union with added counts. -/
def addStats (total s : Stats) : Stats :=
  { req := total.req + s.req
    err := total.err + s.err
    rerr := total.rerr + s.rerr
    bytes := total.bytes + s.bytes
    code := total.code + s.code
    hist := total.hist + s.hist }

/-- `collectStats` (gb.go lines 316-334): fold the received worker stats
into a zeroed total.  The argument list is the sequence of `stats` messages
in arrival order. -/
def collectStats (l : List Stats) : Stats :=
  l.foldl addStats newStats

/-- A concrete worker result, used to evaluate the merge on an example. -/
def sampleStatsA : Stats :=
  { req := 3, err := 1, rerr := 0, bytes := 10, code := {200, 200},
    hist := {5, 7, 9} }

/-- A second concrete worker result, used to evaluate the merge on an
example. -/
def sampleStatsB : Stats :=
  { req := 2, err := 0, rerr := 1, bytes := 20, code := {200, 500},
    hist := {5, 5} }

section BenchLemmas

@[simp]
theorem isConnErr_connErr (lat : Int) :
    (Outcome.connErr lat).isConnErr = true := rfl

@[simp]
theorem isConnErr_success (st : Int) (chunks : List ℕ) (rf : Bool) (lat : Int) :
    (Outcome.success st chunks rf lat).isConnErr = false := rfl

@[simp]
theorem isReadErr_connErr (lat : Int) :
    (Outcome.connErr lat).isReadErr = false := rfl

@[simp]
theorem isReadErr_success (st : Int) (chunks : List ℕ) (rf : Bool) (lat : Int) :
    (Outcome.success st chunks rf lat).isReadErr = rf := rfl

@[simp]
theorem status?_connErr (lat : Int) :
    (Outcome.connErr lat).status? = none := rfl

@[simp]
theorem status?_success (st : Int) (chunks : List ℕ) (rf : Bool) (lat : Int) :
    (Outcome.success st chunks rf lat).status? = some st := rfl

@[simp]
theorem latency_connErr (lat : Int) :
    (Outcome.connErr lat).latency = lat := rfl

@[simp]
theorem latency_success (st : Int) (chunks : List ℕ) (rf : Bool) (lat : Int) :
    (Outcome.success st chunks rf lat).latency = lat := rfl

theorem benchLoop_eq_foldl (k : ℕ) (outcomes : List Outcome) (s : Stats) :
    benchLoop s k outcomes = (outcomes.take k).foldl iterate s := by
  induction outcomes generalizing k s with
  | nil => cases k <;> simp [benchLoop]
  | cons o rest ih =>
      cases k with
      | zero => simp [benchLoop]
      | succ k => simp [benchLoop, ih]

theorem foldl_iterate_req (l : List Outcome) (s : Stats) :
    (l.foldl iterate s).req = s.req + l.length := by
  induction l generalizing s with
  | nil => simp
  | cons o rest ih =>
      cases o <;> simp [iterate, ih] <;> omega

theorem foldl_iterate_err (l : List Outcome) (s : Stats) :
    (l.foldl iterate s).err = s.err + l.countP Outcome.isConnErr := by
  induction l generalizing s with
  | nil => simp
  | cons o rest ih =>
      cases o <;> simp [iterate, ih, List.countP_cons] <;> omega

theorem foldl_iterate_rerr (l : List Outcome) (s : Stats) :
    (l.foldl iterate s).rerr = s.rerr + l.countP Outcome.isReadErr := by
  induction l generalizing s with
  | nil => simp
  | cons o rest ih =>
      rcases o with lat | ⟨st, chunks, readFail, lat⟩
      · simp [iterate, ih, List.countP_cons]
      · cases readFail <;> simp [iterate, ih, List.countP_cons] <;> omega

theorem foldl_iterate_code (l : List Outcome) (s : Stats) :
    (l.foldl iterate s).code = s.code + ↑(l.filterMap Outcome.status?) := by
  induction l generalizing s with
  | nil => simp
  | cons o rest ih =>
      rcases o with lat | ⟨st, chunks, readFail, lat⟩
      · simp [iterate, ih]
      · simp [iterate, ih]
        rw [← Multiset.cons_coe, ← Multiset.singleton_add, ← add_assoc]

theorem foldl_iterate_hist (l : List Outcome) (s : Stats) :
    (l.foldl iterate s).hist = s.hist + ↑(l.map Outcome.latency) := by
  induction l generalizing s with
  | nil => simp
  | cons o rest ih =>
      rcases o with lat | ⟨st, chunks, readFail, lat⟩ <;>
        · simp [iterate, ih]
          rw [← Multiset.cons_coe, ← Multiset.singleton_add, ← add_assoc]

theorem filterMap_status_length (l : List Outcome) :
    (l.filterMap Outcome.status?).length + l.countP Outcome.isConnErr
      = l.length := by
  induction l with
  | nil => simp
  | cons o rest ih =>
      rcases o with lat | ⟨st, chunks, readFail, lat⟩ <;>
        simp [List.countP_cons] <;> omega

end BenchLemmas

/-- C7: The stop signal is observed by a worker only at a loop-iteration
boundary, before dispatching: a run stopped at boundary `k` accumulates
exactly the full effect of its first `k` iterations, each run to completion.
In particular `connErrors` counts exactly the dispatch failures among those
iterations and `readErrors` exactly their read failures — the stop signal
never adds either for an otherwise-successful request — and every
successfully dispatched iteration is recorded with its status count and its
histogram entry. -/
theorem bench_stop_at_iteration_boundary (outcomes : List Outcome) (k : ℕ) :
    benchRun k outcomes = bench (outcomes.take k)
    ∧ (benchRun k outcomes).err = (outcomes.take k).countP Outcome.isConnErr
    ∧ (benchRun k outcomes).rerr = (outcomes.take k).countP Outcome.isReadErr
    ∧ (benchRun k outcomes).code =
        ↑((outcomes.take k).filterMap Outcome.status?)
    ∧ (benchRun k outcomes).hist =
        ↑((outcomes.take k).map Outcome.latency) := by
  have hrun : benchRun k outcomes = bench (outcomes.take k) := by
    simp [benchRun, bench, benchLoop_eq_foldl]
  refine ⟨hrun, ?_, ?_, ?_, ?_⟩ <;> rw [hrun] <;>
    simp [bench, foldl_iterate_err, foldl_iterate_rerr, foldl_iterate_code,
      foldl_iterate_hist, newStats]

/-- C1 counterexample: a single iteration whose dispatch fails.  It yields
`requests = 1`, `connErrors = 1`, an *empty* status map, but a *nonempty*
histogram (gb.go line 107 records the latency bucket outside the if/else),
so the histogram's total bucket count is `1 ≠ 0 = requests − connErrors`,
contradicting the claim. -/
theorem bench_connErr_histogram_counterexample :
    (bench [Outcome.connErr 5]).req = 1
    ∧ (bench [Outcome.connErr 5]).err = 1
    ∧ (bench [Outcome.connErr 5]).code = 0
    ∧ (bench [Outcome.connErr 5]).hist = {5}
    ∧ ¬ (Multiset.card (bench [Outcome.connErr 5]).hist
          = (bench [Outcome.connErr 5]).req - (bench [Outcome.connErr 5]).err) := by
  refine ⟨rfl, rfl, rfl, rfl, ?_⟩
  decide

/-- C1 (amended): at loop exit every worker's stats satisfy
`requests ≥ connErrors`, the histogram's total bucket count equals
`requests` (every iteration records exactly one histogram entry, failed
dispatches included), the status maps' total count equals
`requests − connErrors`, and an iteration whose dispatch fails adds a
histogram entry for the attempt but no status entry. -/
theorem bench_stats_invariant (outcomes : List Outcome) :
    (bench outcomes).err ≤ (bench outcomes).req
    ∧ Multiset.card (bench outcomes).hist = (bench outcomes).req
    ∧ Multiset.card (bench outcomes).code =
        (bench outcomes).req - (bench outcomes).err
    ∧ ∀ (s : Stats) (lat : Int),
        (iterate s (.connErr lat)).code = s.code
        ∧ (iterate s (.connErr lat)).hist = s.hist + {lat} := by
  refine ⟨?_, ?_, ?_, fun s lat => ⟨rfl, rfl⟩⟩ <;>
    simp [bench, foldl_iterate_err, foldl_iterate_req, foldl_iterate_code,
      foldl_iterate_hist, newStats]
  · exact List.countP_le_length _
  · have h := filterMap_status_length outcomes
    omega

section CollectLemmas

theorem foldl_addStats_req (l : List Stats) (init : Stats) :
    (l.foldl addStats init).req = init.req + (l.map Stats.req).sum := by
  induction l generalizing init with
  | nil => simp
  | cons s rest ih => simp [addStats, ih, add_assoc]

theorem foldl_addStats_err (l : List Stats) (init : Stats) :
    (l.foldl addStats init).err = init.err + (l.map Stats.err).sum := by
  induction l generalizing init with
  | nil => simp
  | cons s rest ih => simp [addStats, ih, add_assoc]

theorem foldl_addStats_rerr (l : List Stats) (init : Stats) :
    (l.foldl addStats init).rerr = init.rerr + (l.map Stats.rerr).sum := by
  induction l generalizing init with
  | nil => simp
  | cons s rest ih => simp [addStats, ih, add_assoc]

theorem foldl_addStats_bytes (l : List Stats) (init : Stats) :
    (l.foldl addStats init).bytes = init.bytes + (l.map Stats.bytes).sum := by
  induction l generalizing init with
  | nil => simp
  | cons s rest ih => simp [addStats, ih, add_assoc]

theorem foldl_addStats_code (l : List Stats) (init : Stats) :
    (l.foldl addStats init).code = init.code + (l.map Stats.code).sum := by
  induction l generalizing init with
  | nil => simp
  | cons s rest ih => simp [addStats, ih, add_assoc]

theorem foldl_addStats_hist (l : List Stats) (init : Stats) :
    (l.foldl addStats init).hist = init.hist + (l.map Stats.hist).sum := by
  induction l generalizing init with
  | nil => simp
  | cons s rest ih => simp [addStats, ih, add_assoc]

theorem multiset_count_list_sum (k : Int) (l : List (Multiset Int)) :
    Multiset.count k l.sum = (l.map (fun m => Multiset.count k m)).sum := by
  induction l with
  | nil => simp
  | cons m rest ih => simp [ih]

end CollectLemmas

/-- C2: the merged totals equal the pointwise sum of every `WorkerStats`
field across all workers — the counter maps are merged by key union with
counts added, so every key's merged count is the sum of that key's count
over the workers — and the merge is order-independent: any permutation of
the arrival order yields the same totals. -/
theorem collectStats_pointwise_sum_perm (l l' : List Stats) (hperm : l.Perm l') :
    collectStats l = collectStats l'
    ∧ (collectStats l).req = (l.map Stats.req).sum
    ∧ (collectStats l).err = (l.map Stats.err).sum
    ∧ (collectStats l).rerr = (l.map Stats.rerr).sum
    ∧ (collectStats l).bytes = (l.map Stats.bytes).sum
    ∧ (collectStats l).code = (l.map Stats.code).sum
    ∧ (collectStats l).hist = (l.map Stats.hist).sum
    ∧ (∀ k : Int, Multiset.count k (collectStats l).code
        = (l.map (fun s => Multiset.count k s.code)).sum)
    ∧ (∀ k : Int, Multiset.count k (collectStats l).hist
        = (l.map (fun s => Multiset.count k s.hist)).sum) := by
  have fields : ∀ m : List Stats,
      (collectStats m).req = (m.map Stats.req).sum
      ∧ (collectStats m).err = (m.map Stats.err).sum
      ∧ (collectStats m).rerr = (m.map Stats.rerr).sum
      ∧ (collectStats m).bytes = (m.map Stats.bytes).sum
      ∧ (collectStats m).code = (m.map Stats.code).sum
      ∧ (collectStats m).hist = (m.map Stats.hist).sum := by
    intro m
    refine ⟨?_, ?_, ?_, ?_, ?_, ?_⟩ <;>
      simp [collectStats, foldl_addStats_req, foldl_addStats_err,
        foldl_addStats_rerr, foldl_addStats_bytes, foldl_addStats_code,
        foldl_addStats_hist, newStats]
  obtain ⟨h1, h2, h3, h4, h5, h6⟩ := fields l
  obtain ⟨g1, g2, g3, g4, g5, g6⟩ := fields l'
  refine ⟨?_, h1, h2, h3, h4, h5, h6, ?_, ?_⟩
  · ext1 <;>
      [rw [h1, g1]; rw [h2, g2]; rw [h3, g3]; rw [h4, g4]; rw [h5, g5];
        rw [h6, g6]] <;>
      exact List.Perm.sum_eq (hperm.map _)
  · intro k; rw [h5, multiset_count_list_sum, List.map_map]; rfl
  · intro k; rw [h6, multiset_count_list_sum, List.map_map]; rfl

/-- C2 witness: merging two concrete worker results in either order gives
identical totals, equal to the pointwise sums. -/
theorem collectStats_pointwise_sum_perm_witness :
    collectStats [sampleStatsA, sampleStatsB]
      = collectStats [sampleStatsB, sampleStatsA]
    ∧ (collectStats [sampleStatsA, sampleStatsB]).req
      = ([sampleStatsA, sampleStatsB].map Stats.req).sum := by
  have h := collectStats_pointwise_sum_perm
    [sampleStatsA, sampleStatsB] [sampleStatsB, sampleStatsA]
    (List.Perm.swap sampleStatsB sampleStatsA [])
  exact ⟨h.1, h.2.1⟩

/-- The release loop of `rampupGenerator` (gb.go lines 268-284): each round
releases `min g n` workers at the current time `t` (ms after start; the
inner `for` sends `groupCnt` signals, breaking early when `n` hits zero),
then waits for the next 100 ms tick.  `fuel` bounds the number of rounds;
`fuel = n` suffices whenever `g ≥ 1`, since every round then releases at
least one worker. -/
def rampRoundsAux (g : ℕ) : ℕ → ℕ → ℕ → List ℕ
  | 0, _, _ => []
  | fuel + 1, n, t =>
    if n = 0 then []
    else
      List.replicate (min g n) t
        ++ rampRoundsAux g fuel (n - min g n) (t + 100)

/-- The full release schedule of the generator loop for group size `g` and
`n` workers, starting at time 0. -/
def rampRounds (g n : ℕ) : List ℕ :=
  rampRoundsAux g n n 0

/-- `rampupGenerator` (gb.go lines 255-287), absent a stop signal, as the
list of times (ms after start) at which each worker is released.
`totalMs` is the ramp-up window in milliseconds; the tick interval `d` is
100 ms.  `none` models a generator that never releases all workers:
with `0 < totalMs < 100`, `groups := totalMs/100` is zero and
`groupCnt := n / groups` divides by zero (Go runtime panic); with
`groupCnt = 0` (i.e. `n < groups`) every round releases nobody and the
loop spins until the stop signal. -/
def rampupGenerator (n : ℕ) (totalMs : ℕ) : Option (List ℕ) :=
  if totalMs = 0 then some (List.replicate n 0)
  else
    let groups := totalMs / 100
    if groups = 0 then none
    else
      let groupCnt := n / groups
      if groupCnt = 0 then none
      else some (rampRounds groupCnt n)

theorem rampRoundsAux_eq (g : ℕ) (hg : 1 ≤ g) :
    ∀ fuel n t, n ≤ fuel →
      rampRoundsAux g fuel n t
        = (List.range n).map (fun j => t + 100 * (j / g)) := by
  intro fuel
  induction fuel with
  | zero =>
      intro n t hn
      interval_cases n
      simp [rampRoundsAux]
  | succ fuel ih =>
      intro n t hn
      by_cases hn0 : n = 0
      · subst hn0; simp [rampRoundsAux]
      · have hmn : min g n ≤ n := min_le_right g n
        have hrec := ih (n - min g n) (t + 100) (by omega)
        have hr : (List.range n).map (fun j => t + 100 * (j / g))
            = List.replicate (min g n) t
              ++ (List.range (n - min g n)).map
                  (fun j => (t + 100) + 100 * (j / g)) := by
          have hsplit : n = min g n + (n - min g n) := by omega
          conv_lhs => rw [hsplit]
          rw [List.range_add, List.map_append, List.map_map]
          congr 1
          · rw [List.eq_replicate_iff]
            refine ⟨by simp, ?_⟩
            intro b hb
            simp only [List.mem_map, List.mem_range] at hb
            obtain ⟨j, hj, rfl⟩ := hb
            have hjg : j < g := lt_of_lt_of_le hj (min_le_left g n)
            rw [Nat.div_eq_of_lt hjg, mul_zero, add_zero]
          · apply List.map_congr_left
            intro j hj
            simp only [List.mem_range] at hj
            have hmg : min g n = g := by omega
            simp only [Function.comp_apply, hmg]
            have hdiv : (g + j) / g = j / g + 1 := by
              rw [add_comm, Nat.add_div_right _ (by omega)]
            rw [hdiv]
            ring
        rw [rampRoundsAux, if_neg hn0, hrec, hr]

/-- C6 counterexample: one worker and a one-second ramp-up window.  The
generator computes `groups = 10` and `groupCnt = 1/10 = 0`, so every round
releases zero workers and the single worker is never released (until the
stop signal frees it), contradicting the claim that all workers are
released no later than `t` after start. -/
theorem rampupGenerator_counterexample :
    1 ≤ 1 ∧ 0 < 1000 ∧ rampupGenerator 1 1000 = none := by
  refine ⟨le_refl 1, by norm_num, ?_⟩
  decide

/-- C6 (amended): with window 0 all `n` workers are released immediately.
With window `t ≥ 100 ms`, let `groups = ⌊t/100ms⌋` and
`groupCnt = ⌊n/groups⌋`; when `groupCnt ≥ 1` the generator releases the
workers in groups of `groupCnt` at fixed 100 ms sub-intervals — worker `j`
at time `100·⌊j/groupCnt⌋ ms` — and when additionally `groups` divides `n`,
every worker is released no later than `t` after start.  (When
`groupCnt = 0`, or `0 < t < 100 ms`, the generator releases nobody or
panics: see the counterexample.) -/
theorem rampupGenerator_schedule (n totalMs : ℕ) :
    (totalMs = 0 → rampupGenerator n totalMs = some (List.replicate n 0))
    ∧ (∀ groups groupCnt, groups = totalMs / 100 → groupCnt = n / groups →
        1 ≤ groups → 1 ≤ groupCnt →
        rampupGenerator n totalMs
            = some ((List.range n).map (fun j => 100 * (j / groupCnt)))
        ∧ ((List.range n).map (fun j => 100 * (j / groupCnt))).length = n
        ∧ (groups ∣ n →
            ∀ x ∈ (List.range n).map (fun j => 100 * (j / groupCnt)),
              x ≤ totalMs)) := by
  constructor
  · intro h0; simp [rampupGenerator, h0]
  · intro groups groupCnt hgroups hcnt hg1 hc1
    have ht0 : totalMs ≠ 0 := by
      intro h; rw [h] at hgroups; omega
    have hmain : rampupGenerator n totalMs
        = some ((List.range n).map (fun j => 100 * (j / groupCnt))) := by
      rw [rampupGenerator, if_neg ht0]
      simp only [← hgroups, ← hcnt]
      rw [if_neg (by omega), if_neg (by omega), rampRounds,
        rampRoundsAux_eq groupCnt hc1 n n 0 (le_refl n)]
      simp
    refine ⟨hmain, by simp, ?_⟩
    intro hdvd x hx
    simp only [List.mem_map, List.mem_range] at hx
    obtain ⟨j, hj, rfl⟩ := hx
    obtain ⟨c, hc⟩ := hdvd
    have hccnt : groupCnt = c := by
      rw [hcnt, hc, mul_comm, Nat.mul_div_cancel _ (by omega)]
    have hjq : j / groupCnt < groups := by
      rw [Nat.div_lt_iff_lt_mul (by omega)]
      calc j < n := hj
        _ = groups * c := hc
        _ = groups * groupCnt := by rw [hccnt]
    have h100 : 100 * groups ≤ totalMs := by
      rw [hgroups, mul_comm]
      exact Nat.div_mul_le_self totalMs 100
    calc 100 * (j / groupCnt) ≤ 100 * groups := by
          exact Nat.mul_le_mul_left 100 (le_of_lt hjq)
      _ ≤ totalMs := h100

/-- C6 witness: 20 workers over a 1000 ms window — `groups = 10`,
`groupCnt = 2`, workers released in pairs at 0,100,…,900 ms, all within the
window. -/
theorem rampupGenerator_schedule_witness :
    rampupGenerator 20 1000
        = some ((List.range 20).map (fun j => 100 * (j / 2)))
    ∧ (∀ x ∈ (List.range 20).map (fun j => 100 * (j / 2)), x ≤ 1000) := by
  have h := (rampupGenerator_schedule 20 1000).2 10 2 (by norm_num)
    (by norm_num) (by norm_num) (by norm_num)
  exact ⟨h.1, h.2.2 (by norm_num)⟩

/-- The unit table of `reportSize` (gb.go line 337). -/
def sizeUnits : List String := ["B", "kB", "MB", "GB", "TB", "PB"]

/-- The unit table of `reportThroughput` (gb.go line 354). -/
def throughputUnits : List String :=
  ["B/s", "kB/s", "MB/s", "GB/s", "TB/s", "PB/s"]

/-- The unit table of `reportBandwidth` (gb.go line 370). -/
def bandwidthUnits : List String := ["bps", "kbps", "Mbps", "Gbps"]

/-- The scaling loop shared verbatim by `reportSize`, `reportThroughput`
and `reportBandwidth` (gb.go lines 342-348, 359-365, 375-381):
`for i = 0; i < len(units); i++ { if m < base { break }; m /= base }`.
`fuel` is the number of loop-condition checks remaining,
`units.length - i`; the result is the final `(i, m)`, where
`i = units.length` when the loop exhausts the table with `m` still
`≥ base`.  `float64` arithmetic is modelled exactly over `ℚ`. -/
def unitLoop (base : ℚ) : ℕ → ℚ → ℕ → ℕ × ℚ
  | 0, m, i => (i, m)
  | fuel + 1, m, i =>
      if m < base then (i, m) else unitLoop base fuel (m / base) (i + 1)

/-- The common shape of the three formatters: run the scaling loop, then
index the unit table at the final `i`.  `none` models the Go panic
`units[i]` with `i` out of range. -/
def scaledValue (base : ℚ) (units : List String) (v : ℚ) :
    Option (ℚ × String) :=
  let r := unitLoop base units.length v 0
  (units.get? r.1).map (fun u => (r.2, u))

/-- `reportSize` (gb.go lines 336-351): scale `n` bytes by powers of 1024. -/
def reportSize (n : ℤ) : Option (ℚ × String) :=
  scaledValue 1024 sizeUnits (n : ℚ)

/-- `reportThroughput` (gb.go lines 353-367): scale `n/duration` bytes per
second by powers of 1024. -/
def reportThroughput (n : ℤ) (durationSecs : ℚ) : Option (ℚ × String) :=
  scaledValue 1024 throughputUnits ((n : ℚ) / durationSecs)

/-- `reportBandwidth` (gb.go lines 369-383): scale `8n/duration` bits per
second by powers of 1000. -/
def reportBandwidth (n : ℤ) (durationSecs : ℚ) : Option (ℚ × String) :=
  scaledValue 1000 bandwidthUnits ((8 * (n : ℚ)) / durationSecs)

section UnitLoopLemmas

theorem unitLoop_of_le (base : ℚ) (hb : 1 < base) :
    ∀ (fuel : ℕ) (m : ℚ) (i : ℕ), base ^ fuel ≤ m →
      unitLoop base fuel m i = (i + fuel, m / base ^ fuel) := by
  intro fuel
  induction fuel with
  | zero => intro m i h; simp [unitLoop]
  | succ fuel ih =>
      intro m i h
      have hbpos : (0 : ℚ) < base := by linarith
      have hbase_le : base ≤ m := by
        calc base = base ^ 1 := (pow_one base).symm
          _ ≤ base ^ (fuel + 1) := by
              exact pow_le_pow_right (le_of_lt hb) (by omega)
          _ ≤ m := h
      rw [unitLoop, if_neg (not_lt.mpr hbase_le)]
      have hrec : base ^ fuel ≤ m / base := by
        rw [le_div_iff hbpos, ← pow_succ]
        exact h
      rw [ih (m / base) (i + 1) hrec, div_div, ← pow_succ']
      simp only [Prod.mk.injEq]
      exact ⟨by omega, trivial⟩

theorem unitLoop_of_lt (base : ℚ) (hb : 1 < base) :
    ∀ (fuel : ℕ) (m : ℚ) (i : ℕ), m < base ^ fuel → 0 < fuel →
      ∃ k, k < fuel ∧ unitLoop base fuel m i = (i + k, m / base ^ k)
        ∧ m / base ^ k < base := by
  intro fuel
  induction fuel with
  | zero => intro m i _ h0; omega
  | succ fuel ih =>
      intro m i h _
      have hbpos : (0 : ℚ) < base := by linarith
      by_cases hm : m < base
      · refine ⟨0, by omega, ?_, by simpa using hm⟩
        rw [unitLoop, if_pos hm]
        simp
      · have hfuel : 0 < fuel := by
          rcases Nat.eq_zero_or_pos fuel with h0 | h1
          · exfalso; rw [h0, pow_one] at h; exact hm h
          · exact h1
        have hlt : m / base < base ^ fuel := by
          rw [div_lt_iff hbpos, ← pow_succ]
          exact h
        obtain ⟨k, hk, heq, hbound⟩ := ih (m / base) (i + 1) hlt hfuel
        refine ⟨k + 1, by omega, ?_, ?_⟩
        · rw [unitLoop, if_neg hm, heq, div_div, ← pow_succ']
          simp only [Prod.mk.injEq]
          exact ⟨by omega, trivial⟩
        · rw [pow_succ', ← div_div]
          exact hbound


theorem scaledValue_none_iff (base : ℚ) (hb : 1 < base) (units : List String)
    (hu : 0 < units.length) (v : ℚ) :
    (scaledValue base units v = none ↔ base ^ units.length ≤ v) := by
  constructor
  · intro hnone
    by_contra hlt
    push_neg at hlt
    obtain ⟨k, hk, heq, _⟩ := unitLoop_of_lt base hb units.length v 0 hlt hu
    rw [scaledValue] at hnone
    simp only [heq] at hnone
    rw [List.get?_eq_get (by omega : 0 + k < units.length)] at hnone
    simp at hnone
  · intro hle
    rw [scaledValue]
    simp only [unitLoop_of_le base hb units.length v 0 hle]
    rw [List.get?_eq_none.mpr (by omega : units.length ≤ 0 + units.length)]
    rfl

theorem scaledValue_some (base : ℚ) (hb : 1 < base) (units : List String)
    (hu : 0 < units.length) (v : ℚ) (hv : v < base ^ units.length) :
    ∃ k, k < units.length
      ∧ ∃ hk : k < units.length,
          scaledValue base units v = some (v / base ^ k, units.get ⟨k, hk⟩)
          ∧ v / base ^ k < base
          ∧ (0 ≤ v → 0 ≤ v / base ^ k) := by
  obtain ⟨k, hk, heq, hbound⟩ := unitLoop_of_lt base hb units.length v 0 hv hu
  refine ⟨k, hk, hk, ?_, hbound, ?_⟩
  · rw [scaledValue]
    simp only [heq]
    rw [List.get?_eq_get (by omega : 0 + k < units.length)]
    simp
  · intro hv0
    have hbpos : (0 : ℚ) < base ^ k := by positivity
    exact div_nonneg hv0 (le_of_lt hbpos)

end UnitLoopLemmas

/-- C9: the three formatters are partial at the top of their unit tables.
`reportSize` panics (indexes `units[6]`, modelled `none`) exactly when
`n ≥ 1024^6`; `reportThroughput` exactly when `n/duration ≥ 1024^6`;
`reportBandwidth` exactly when `8n/duration ≥ 1000^4`.  For every smaller
value each function scales it into `[0, base)` (nonnegative whenever the
input is) and tags it with the unit matching the number of scaling steps. -/
theorem report_units_partial (n : ℤ) (dur : ℚ) (hdur : 0 < dur) :
    (reportSize n = none ↔ (1024 : ℚ) ^ 6 ≤ (n : ℚ))
    ∧ ((n : ℚ) < 1024 ^ 6 →
        ∃ k, ∃ hk : k < sizeUnits.length,
          reportSize n = some ((n : ℚ) / 1024 ^ k, sizeUnits.get ⟨k, hk⟩)
          ∧ (n : ℚ) / 1024 ^ k < 1024
          ∧ (0 ≤ n → 0 ≤ (n : ℚ) / 1024 ^ k))
    ∧ (reportThroughput n dur = none ↔ (1024 : ℚ) ^ 6 ≤ (n : ℚ) / dur)
    ∧ ((n : ℚ) / dur < 1024 ^ 6 →
        ∃ k, ∃ hk : k < throughputUnits.length,
          reportThroughput n dur
              = some (((n : ℚ) / dur) / 1024 ^ k, throughputUnits.get ⟨k, hk⟩)
          ∧ ((n : ℚ) / dur) / 1024 ^ k < 1024
          ∧ (0 ≤ n → 0 ≤ ((n : ℚ) / dur) / 1024 ^ k))
    ∧ (reportBandwidth n dur = none ↔ (1000 : ℚ) ^ 4 ≤ (8 * (n : ℚ)) / dur)
    ∧ ((8 * (n : ℚ)) / dur < 1000 ^ 4 →
        ∃ k, ∃ hk : k < bandwidthUnits.length,
          reportBandwidth n dur
              = some ((8 * (n : ℚ)) / dur / 1000 ^ k,
                  bandwidthUnits.get ⟨k, hk⟩)
          ∧ (8 * (n : ℚ)) / dur / 1000 ^ k < 1000
          ∧ (0 ≤ n → 0 ≤ (8 * (n : ℚ)) / dur / 1000 ^ k)) := by
  have h1024 : (1 : ℚ) < 1024 := by norm_num
  have h1000 : (1 : ℚ) < 1000 := by norm_num
  have hs : sizeUnits.length = 6 := rfl
  have ht : throughputUnits.length = 6 := rfl
  have hbw : bandwidthUnits.length = 4 := rfl
  refine ⟨?_, ?_, ?_, ?_, ?_, ?_⟩
  · rw [reportSize, scaledValue_none_iff 1024 h1024 sizeUnits (by decide), hs]
  · intro hlt
    obtain ⟨k, hk, hk2, heq, hb, hnn⟩ :=
      scaledValue_some 1024 h1024 sizeUnits (by decide) (n : ℚ) (by rw [hs]; exact hlt)
    exact ⟨k, hk2, heq, hb, fun h0 => hnn (by exact_mod_cast h0)⟩
  · rw [reportThroughput,
      scaledValue_none_iff 1024 h1024 throughputUnits (by decide), ht]
  · intro hlt
    obtain ⟨k, hk, hk2, heq, hb, hnn⟩ :=
      scaledValue_some 1024 h1024 throughputUnits (by decide) ((n : ℚ) / dur)
        (by rw [ht]; exact hlt)
    refine ⟨k, hk2, heq, hb, fun h0 => hnn ?_⟩
    have : (0 : ℚ) ≤ (n : ℚ) := by exact_mod_cast h0
    positivity
  · rw [reportBandwidth,
      scaledValue_none_iff 1000 h1000 bandwidthUnits (by decide), hbw]
  · intro hlt
    obtain ⟨k, hk, hk2, heq, hb, hnn⟩ :=
      scaledValue_some 1000 h1000 bandwidthUnits (by decide)
        ((8 * (n : ℚ)) / dur) (by rw [hbw]; exact hlt)
    refine ⟨k, hk2, heq, hb, fun h0 => hnn ?_⟩
    have : (0 : ℚ) ≤ (n : ℚ) := by exact_mod_cast h0
    positivity

/-- C9 witness: at exactly `n = 1024^6` bytes, `reportSize` runs off the
end of its unit table; a small value like `n = 5` stays in range. -/
theorem report_units_partial_witness :
    (reportSize (1024 ^ 6) = none ↔ (1024 : ℚ) ^ 6 ≤ ((1024 ^ 6 : ℤ) : ℚ))
    ∧ (((1024 ^ 6 : ℤ) : ℚ) < 1024 ^ 6 →
        ∃ k, ∃ hk : k < sizeUnits.length,
          reportSize (1024 ^ 6)
              = some (((1024 ^ 6 : ℤ) : ℚ) / 1024 ^ k, sizeUnits.get ⟨k, hk⟩)
          ∧ ((1024 ^ 6 : ℤ) : ℚ) / 1024 ^ k < 1024
          ∧ (0 ≤ (1024 ^ 6 : ℤ) → 0 ≤ ((1024 ^ 6 : ℤ) : ℚ) / 1024 ^ k)) := by
  have h := report_units_partial (1024 ^ 6) 1 (by norm_num)
  exact ⟨h.1, h.2.1⟩

/-- The lines of the final report assembled by `reportStats`
(gb.go lines 455-476), excluding the status/histogram sections. -/
structure ReportOut where
  durationSecs : ℚ
  requests : ℕ
  rate : ℚ
  size : ℚ × String
  sizePerReq : ℚ × String
  throughput : ℚ × String
  bandwidth : ℚ × String
  connErrors : Option ℕ
  readErrors : Option ℕ
deriving DecidableEq

/-- `reportStats` (gb.go lines 455-476).  The per-request size is the Go
integer division `total.bytes / total.req` (line 461), which has no zero
guard: `total.req = 0` is a runtime divide-by-zero panic, modelled `none`.
A `none` from any unit formatter (its table overran, see `reportSize`)
likewise aborts the report. -/
def reportStats (total : Stats) (durationSecs : ℚ) : Option ReportOut :=
  if total.req = 0 then none
  else
    match reportSize (total.bytes : ℤ),
        reportSize ((total.bytes / total.req : ℕ) : ℤ),
        reportThroughput (total.bytes : ℤ) durationSecs,
        reportBandwidth (total.bytes : ℤ) durationSecs with
    | some size, some perReq, some tp, some bw =>
        some { durationSecs := durationSecs
               requests := total.req
               rate := (total.req : ℚ) / durationSecs
               size := size
               sizePerReq := perReq
               throughput := tp
               bandwidth := bw
               connErrors := if 0 < total.err then some total.err else none
               readErrors := if 0 < total.rerr then some total.rerr else none }
    | _, _, _, _ => none

/-- A merged total that stops before completing its first request: zero
requests attempted. -/
def emptyTotal : Stats :=
  { req := 0, err := 0, rerr := 0, bytes := 0, code := 0, hist := 0 }

/-- A merged total with one request whose response body was `1024^6`
bytes. -/
def hugeTotal : Stats :=
  { req := 1, err := 0, rerr := 0, bytes := 1024 ^ 6, code := {200},
    hist := {5} }

/-- C10 counterexample: a total with `requests = 1` (so the claim says the
report is produced) whose byte count `1024^6` overruns `reportSize`'s unit
table, so the report still aborts: `requests ≥ 1` alone does not guarantee
a report. -/
theorem reportStats_req_pos_counterexample :
    1 ≤ hugeTotal.req ∧ reportStats hugeTotal 1 = none := by
  refine ⟨le_refl 1, ?_⟩
  have hnone : reportSize (hugeTotal.bytes : ℤ) = none := by
    rw [reportSize,
      scaledValue_none_iff 1024 (by norm_num) sizeUnits (by decide)]
    rw [show hugeTotal.bytes = 1024 ^ 6 from rfl,
      show sizeUnits.length = 6 from rfl]
    push_cast
    norm_num
  rw [reportStats, if_neg (by decide), hnone]

/-- C10 (amended): `reportStats` divides `total.bytes` by `total.req` with
no zero guard, so a merged total with `requests = 0` panics (no report);
for every total with `requests ≥ 1` whose size, throughput and bandwidth
magnitudes stay inside their unit tables (below `1024^6` bytes,
`1024^6` bytes/second and `1000^4` bits/second respectively), the report is
produced. -/
theorem reportStats_division_guard (total : Stats) (dur : ℚ) :
    (total.req = 0 → reportStats total dur = none)
    ∧ (1 ≤ total.req → (total.bytes : ℚ) < 1024 ^ 6 →
        (total.bytes : ℚ) / dur < 1024 ^ 6 →
        (8 * (total.bytes : ℚ)) / dur < 1000 ^ 4 →
        ∃ r, reportStats total dur = some r) := by
  constructor
  · intro h0; rw [reportStats, if_pos h0]
  · intro hreq hsize htp hbw
    have h1024 : (1 : ℚ) < 1024 := by norm_num
    have h1000 : (1 : ℚ) < 1000 := by norm_num
    have hsz : ∃ v, reportSize (total.bytes : ℤ) = some v := by
      obtain ⟨k, hk, hk2, heq, _, _⟩ :=
        scaledValue_some 1024 h1024 sizeUnits (by decide)
          ((total.bytes : ℤ) : ℚ) (by push_cast; exact hsize)
      exact ⟨_, heq⟩
    have hperreq : ∃ v, reportSize ((total.bytes / total.req : ℕ) : ℤ)
        = some v := by
      have hle : ((total.bytes / total.req : ℕ) : ℚ) ≤ (total.bytes : ℚ) := by
        exact_mod_cast Nat.div_le_self total.bytes total.req
      have hlt2 : (((total.bytes / total.req : ℕ) : ℤ) : ℚ)
          < 1024 ^ sizeUnits.length := by
        rw [show sizeUnits.length = 6 from rfl, Int.cast_natCast]
        linarith
      obtain ⟨k, hk, hk2, heq, _, _⟩ :=
        scaledValue_some 1024 h1024 sizeUnits (by decide)
          (((total.bytes / total.req : ℕ) : ℤ) : ℚ) hlt2
      exact ⟨_, heq⟩
    have htpv : ∃ v, reportThroughput (total.bytes : ℤ) dur = some v := by
      obtain ⟨k, hk, hk2, heq, _, _⟩ :=
        scaledValue_some 1024 h1024 throughputUnits (by decide)
          (((total.bytes : ℤ) : ℚ) / dur) (by push_cast; exact htp)
      exact ⟨_, heq⟩
    have hbwv : ∃ v, reportBandwidth (total.bytes : ℤ) dur = some v := by
      obtain ⟨k, hk, hk2, heq, _, _⟩ :=
        scaledValue_some 1000 h1000 bandwidthUnits (by decide)
          ((8 * ((total.bytes : ℤ) : ℚ)) / dur) (by push_cast; exact hbw)
      exact ⟨_, heq⟩
    obtain ⟨v1, h1⟩ := hsz
    obtain ⟨v2, h2⟩ := hperreq
    obtain ⟨v3, h3⟩ := htpv
    obtain ⟨v4, h4⟩ := hbwv
    rw [reportStats, if_neg (by omega), h1, h2, h3, h4]
    exact ⟨_, rfl⟩

/-- C10 witness: a small ordinary total with one request produces a
report; the zero-request total does not. -/
theorem reportStats_division_guard_witness :
    reportStats emptyTotal 1 = none
    ∧ ∃ r, reportStats
        { req := 1, err := 0, rerr := 0, bytes := 100, code := {200},
          hist := {5} } (1 : ℚ) = some r := by
  constructor
  · exact (reportStats_division_guard emptyTotal 1).1 rfl
  · exact (reportStats_division_guard
      { req := 1, err := 0, rerr := 0, bytes := 100, code := {200},
        hist := {5} } 1).2 (le_refl 1) (by norm_num) (by norm_num)
      (by norm_num)

/-- The percentile target list `want` (gb.go line 424). -/
def want : List ℕ := [10, 25, 50, 75, 90, 95, 99]

/-- The inner while loop of `reportHistogram` (gb.go line 437):
`i := next; for i < len(want) && percentile >= want[i] { i++ }`.
`fuel` is the number of remaining indices, `want.length - i`, which bounds
the loop. -/
def advanceAux (percentile : ℕ) : ℕ → ℕ → ℕ
  | 0, i => i
  | fuel + 1, i =>
      if h : i < want.length then
        if want.get ⟨i, h⟩ ≤ percentile then advanceAux percentile fuel (i + 1)
        else i
      else i

/-- The final value of `i` after the while loop, started at `i`. -/
def advance (percentile i : ℕ) : ℕ :=
  advanceAux percentile (want.length - i) i

/-- The annotation loop of `reportHistogram` (gb.go lines 428-452), reduced
to its annotation content: visit the bucket keys in list order, keeping the
running sum and the index `next` of the first unconsumed target; a bucket is
annotated (gb.go lines 436-445) with `want[i-1]` where `i` is the while
loop's final index, whenever the loop advanced (`i-1 >= next`), and `next`
then jumps to `i`.  `percentile` is the Go integer division
`sum * 100 / total.req` (the callers guarantee `req ≥ 1`; `req = 0` would
be a Go divide-by-zero panic before any annotation). -/
def annLoop (hist : Int → ℕ) (req : ℕ) :
    List Int → ℕ → ℕ → List (Int × Option ℕ)
  | [], _, _ => []
  | m :: ms, sum, next =>
      if next < want.length then
        let sum2 := sum + hist m
        let p := sum2 * 100 / req
        let i := advance p next
        if next < i then
          (m, want.get? (i - 1)) :: annLoop hist req ms sum2 i
        else
          (m, none) :: annLoop hist req ms sum2 next
      else
        (m, none) :: annLoop hist req ms sum next

/-- The sorted, de-duplicated bucket keys of a histogram
(gb.go lines 410-418: collect the map keys and `sort.Ints`). -/
def sortedMilis (s : Stats) : List Int :=
  s.hist.toFinset.sort (· ≤ ·)

/-- `reportHistogram` (gb.go lines 403-453), reduced to its annotation
content: each sorted bucket key paired with its percentile annotation. -/
def reportHistogram (s : Stats) : List (Int × Option ℕ) :=
  annLoop (fun m => Multiset.count m s.hist) s.req (sortedMilis s) 0 0

/-- The annotation the claim's words predict for one bucket: the smallest
still-pending target (those from index `next` on) whose value is reached or
exceeded by the cumulative `percentile`. -/
def smallestSatisfied (percentile next : ℕ) : Option ℕ :=
  ((want.drop next).filter (fun t => t ≤ percentile)).head?

/-- The per-bucket annotation rule the code actually implements, stated
declaratively: a bucket is annotated with the *largest* still-pending
target reached or exceeded by the cumulative percentile, and that target
together with every smaller pending one is consumed. -/
def specAnn (hist : Int → ℕ) (req : ℕ) :
    List Int → ℕ → ℕ → List (Int × Option ℕ)
  | [], _, _ => []
  | m :: ms, sum, next =>
      if next < want.length then
        let sum2 := sum + hist m
        let p := sum2 * 100 / req
        let satisfied := (want.drop next).filter (fun t => t ≤ p)
        match satisfied.getLast? with
        | some t =>
            (m, some t) :: specAnn hist req ms sum2 (next + satisfied.length)
        | none => (m, none) :: specAnn hist req ms sum2 next
      else
        (m, none) :: specAnn hist req ms sum next

/-- A concrete merged total: 10 requests, 6 in the 5 ms bucket and 4 in the
10 ms bucket. -/
def histExample : Stats :=
  { req := 10, err := 0, rerr := 0, bytes := 0,
    code := Multiset.replicate 10 200,
    hist := Multiset.replicate 6 5 + Multiset.replicate 4 10 }

section HistogramLemmas

theorem filter_le_eq_takeWhile :
    ∀ (l : List ℕ), l.Pairwise (· ≤ ·) → ∀ p : ℕ,
      l.filter (fun t => t ≤ p) = l.takeWhile (fun t => t ≤ p) := by
  intro l
  induction l with
  | nil => intro _ p; rfl
  | cons a l ih =>
      intro hl p
      rw [List.pairwise_cons] at hl
      by_cases hap : a ≤ p
      · simp [List.filter_cons, List.takeWhile_cons, hap, ih hl.2 p]
      · have hnil : l.filter (fun t => decide (t ≤ p)) = [] := by
          rw [List.filter_eq_nil_iff]
          intro b hb
          simp only [decide_eq_true_eq]
          exact fun hbp => hap (le_trans (hl.1 b hb) hbp)
        simp [List.filter_cons, List.takeWhile_cons, hap, hnil]

theorem advanceAux_eq (p : ℕ) :
    ∀ fuel i, want.length - i ≤ fuel →
      advanceAux p fuel i
        = i + ((want.drop i).takeWhile (fun t => t ≤ p)).length := by
  intro fuel
  induction fuel with
  | zero =>
      intro i h
      rw [advanceAux, List.drop_eq_nil_of_le (by omega)]
      simp
  | succ fuel ih =>
      intro i h
      by_cases hi : i < want.length
      · have hdrop : want.drop i = want.get ⟨i, hi⟩ :: want.drop (i + 1) :=
          List.drop_eq_getElem_cons hi
        by_cases hle : want.get ⟨i, hi⟩ ≤ p
        · rw [advanceAux, dif_pos hi, if_pos hle, ih (i + 1) (by omega),
            hdrop, List.takeWhile_cons_of_pos (by simpa using hle)]
          simp only [List.length_cons]
          omega
        · rw [advanceAux, dif_pos hi, if_neg hle, hdrop,
            List.takeWhile_cons_of_neg (by simpa using hle)]
          simp
      · rw [advanceAux, dif_neg hi, List.drop_eq_nil_of_le (by omega)]
        simp

theorem advance_eq (p i : ℕ) :
    advance p i = i + ((want.drop i).takeWhile (fun t => t ≤ p)).length :=
  advanceAux_eq p (want.length - i) i (le_refl _)

theorem advance_le_length (p i : ℕ) (hi : i ≤ want.length) :
    advance p i ≤ want.length := by
  rw [advance_eq]
  have h1 : ((want.drop i).takeWhile (fun t => t ≤ p)).length
      ≤ (want.drop i).length := (List.takeWhile_sublist _).length_le
  have h2 : (want.drop i).length = want.length - i := List.length_drop i want
  omega

theorem takeWhile_getElem?_getLast? {α : Type} (l : List α) (p : α → Bool)
    (h : (l.takeWhile p).length ≠ 0) :
    (l.takeWhile p).getLast? = l[(l.takeWhile p).length - 1]? := by
  obtain ⟨t, ht⟩ := List.takeWhile_prefix (l := l) (p := p)
  set k := (l.takeWhile p).length - 1 with hk
  have hklt : k < (l.takeWhile p).length := by omega
  rw [List.getLast?_eq_getElem?]
  conv_rhs => rw [← ht]
  rw [List.getElem?_append_left hklt]

end HistogramLemmas

theorem sortedMilis_histExample : sortedMilis histExample = [5, 10] := by
  apply List.eq_of_perm_of_sorted (r := (· ≤ ·))
  · rw [← Multiset.coe_eq_coe]
    simp only [sortedMilis]
    rw [Finset.sort_eq]
    decide
  · exact Finset.sort_sorted _ _
  · decide

theorem getElem?_drop_eq {α : Type} (l : List α) (n k : ℕ) :
    (l.drop n)[k]? = l[n + k]? := by
  induction n generalizing l k with
  | zero => simp
  | succ n ih =>
      cases l with
      | nil => simp
      | cons a l =>
          rw [List.drop_succ_cons, ih]
          have : n + 1 + k = (n + k) + 1 := by omega
          rw [this, List.getElem?_cons_succ]

theorem want_get?_lt {i j a b : ℕ} (hij : i < j) (ha : want.get? i = some a)
    (hb : want.get? j = some b) : a < b := by
  rw [List.get?_eq_getElem?, List.getElem?_eq_some_iff] at ha hb
  obtain ⟨hi, rfl⟩ := ha
  obtain ⟨hj, rfl⟩ := hb
  have hpw : want.Pairwise (· < ·) := by decide
  have := List.pairwise_iff_get.mp hpw ⟨i, hi⟩ ⟨j, hj⟩ hij
  simpa using this

theorem annLoop_eq_specAnn (hist : Int → ℕ) (req : ℕ) :
    ∀ (keys : List Int) (sum next : ℕ),
      annLoop hist req keys sum next = specAnn hist req keys sum next := by
  intro keys
  induction keys with
  | nil => intro sum next; rfl
  | cons m ms ih =>
      intro sum next
      by_cases hnext : next < want.length
      · rw [annLoop, specAnn]
        simp only [if_pos hnext]
        set p := (sum + hist m) * 100 / req with hp
        have hpair : (want.drop next).Pairwise (· ≤ ·) :=
          List.Pairwise.sublist (List.drop_sublist next want) (by decide)
        have hfil := filter_le_eq_takeWhile (want.drop next) hpair p
        set tw := (want.drop next).takeWhile (fun t => t ≤ p) with htw
        have hadv : advance p next = next + tw.length := advance_eq p next
        by_cases hlen : tw.length = 0
        · have htwnil : tw = [] := List.length_eq_zero.mp hlen
          rw [hfil, htwnil, hadv, hlen]
          simp [ih]
        · have hlen1 : 1 ≤ tw.length := by omega
          have hle : advance p next ≤ want.length :=
            advance_le_length p next (le_of_lt hnext)
          have hbound : next + tw.length - 1 < want.length := by omega
          have hget : tw.getLast? = want[next + tw.length - 1]? := by
            rw [takeWhile_getElem?_getLast? _ _ hlen, getElem?_drop_eq]
            have : next + (tw.length - 1) = next + tw.length - 1 := by omega
            rw [this]
          obtain ⟨w, hw⟩ : ∃ w, want[next + tw.length - 1]? = some w :=
            ⟨_, List.getElem?_eq_getElem hbound⟩
          rw [hfil, hget, hw, hadv]
          simp only [if_pos (by omega : next < next + tw.length)]
          rw [List.get?_eq_getElem?]
          have : next + tw.length - 1 = next + tw.length - 1 := rfl
          rw [hw, ih]
      · rw [annLoop, specAnn]
        simp only [if_neg hnext]
        rw [ih]

theorem annLoop_map_fst (hist : Int → ℕ) (req : ℕ) :
    ∀ (keys : List Int) (sum next : ℕ),
      (annLoop hist req keys sum next).map Prod.fst = keys := by
  intro keys
  induction keys with
  | nil => intro sum next; rfl
  | cons m ms ih =>
      intro sum next
      simp only [annLoop]
      by_cases h1 : next < want.length
      · by_cases h2 : next < advance ((sum + hist m) * 100 / req) next <;>
          simp [h1, h2, ih]
      · simp [h1, ih]

theorem annLoop_ann_index (hist : Int → ℕ) (req : ℕ) :
    ∀ (keys : List Int) (sum next : ℕ) (x : Int × Option ℕ),
      x ∈ annLoop hist req keys sum next → ∀ pv, x.2 = some pv →
        ∃ idx, next ≤ idx ∧ want.get? idx = some pv := by
  intro keys
  induction keys with
  | nil =>
      intro sum next x hx
      simp [annLoop] at hx
  | cons m ms ih =>
      intro sum next x hx pv hpv
      simp only [annLoop] at hx
      split_ifs at hx with h1 h2
      · rcases List.mem_cons.mp hx with rfl | hmem
        · refine ⟨advance ((sum + hist m) * 100 / req) next - 1,
            by omega, ?_⟩
          rw [← hpv]
        · obtain ⟨idx, hidx, hval⟩ := ih _ _ x hmem pv hpv
          exact ⟨idx, by omega, hval⟩
      · rcases List.mem_cons.mp hx with rfl | hmem
        · simp at hpv
        · exact ih _ _ x hmem pv hpv
      · rcases List.mem_cons.mp hx with rfl | hmem
        · simp at hpv
        · exact ih _ _ x hmem pv hpv

theorem annLoop_pairwise (hist : Int → ℕ) (req : ℕ) :
    ∀ (keys : List Int) (sum next : ℕ),
      (annLoop hist req keys sum next).Pairwise
        (fun a b => ∀ pa pb, a.2 = some pa → b.2 = some pb → pa < pb) := by
  intro keys
  induction keys with
  | nil => intro sum next; simp [annLoop]
  | cons m ms ih =>
      intro sum next
      simp only [annLoop]
      split_ifs with h1 h2
      · refine List.Pairwise.cons ?_ (ih _ _)
        intro b hb pa pb hpa hpb
        obtain ⟨idx, hidx, hval⟩ := annLoop_ann_index hist req ms _ _ b hb pb hpb
        have hpa2 : want.get?
            (advance ((sum + hist m) * 100 / req) next - 1) = some pa := hpa
        exact want_get?_lt (by omega) hpa2 hval
      · refine List.Pairwise.cons ?_ (ih _ _)
        intro b hb pa pb hpa hpb
        simp at hpa
      · refine List.Pairwise.cons ?_ (ih _ _)
        intro b hb pa pb hpa hpb
        simp at hpa

/-- C3 counterexample: `histExample` has cumulative percentile 60 at its
first bucket (5 ms), reaching the pending targets 10, 25 and 50.  The
smallest of these is 10, but the code annotates the bucket with 50 — the
*largest* satisfied pending target — and silently consumes 10 and 25. -/
theorem reportHistogram_smallest_counterexample :
    reportHistogram histExample = [(5, some 50), (10, some 99)]
    ∧ smallestSatisfied
        ((0 + Multiset.count 5 histExample.hist) * 100 / histExample.req) 0
      = some 10
    ∧ (some (50 : ℕ) ≠ some (10 : ℕ)) := by
  refine ⟨?_, by decide, by decide⟩
  rw [reportHistogram, sortedMilis_histExample]
  decide

/-- C3 (amended): histogram rendering visits the bucket keys in ascending
order (the keys are sorted before the loop and appear in output order), with
a running cumulative fraction of total requests; a bucket whose cumulative
percentile reaches or exceeds one or more still-pending targets from the
ordered list 10/25/50/75/90/95/99 is annotated with the *largest* such
target (not the smallest), and that target together with every smaller
still-pending target is consumed — a skipped smaller target is attributed
to no bucket at all. -/
theorem reportHistogram_largest_pending_rule (s : Stats) (hist : Int → ℕ)
    (req : ℕ) (keys : List Int) (sum next : ℕ) :
    (sortedMilis s).Sorted (· < ·)
    ∧ (reportHistogram s).map Prod.fst = sortedMilis s
    ∧ annLoop hist req keys sum next = specAnn hist req keys sum next :=
  ⟨Finset.sort_sorted_lt _, annLoop_map_fst _ _ _ _ _,
    annLoop_eq_specAnn hist req keys sum next⟩

/-- C4: percentile annotation is monotonic: if the bucket at position `i`
of the rendered histogram has key `ki` and annotation `pi`, the bucket at
position `j` has key `kj` and annotation `pj`, and `ki < kj`, then
`pi < pj`; in particular no target is repeated and annotations never
regress. -/
theorem reportHistogram_percentile_monotonic (s : Stats) (i j : ℕ)
    (ki kj : Int) (pi pj : ℕ)
    (hki : (reportHistogram s)[i]? = some (ki, some pi))
    (hkj : (reportHistogram s)[j]? = some (kj, some pj))
    (hkey : ki < kj) : pi < pj := by
  rw [List.getElem?_eq_some_iff] at hki hkj
  obtain ⟨hi, hgi⟩ := hki
  obtain ⟨hj, hgj⟩ := hkj
  have hsorted : (sortedMilis s).Sorted (· < ·) := Finset.sort_sorted_lt _
  have hmap : (reportHistogram s).map Prod.fst = sortedMilis s :=
    annLoop_map_fst _ _ _ _ _
  have hs2 : ((reportHistogram s).map Prod.fst).Sorted (· < ·) := by
    rw [hmap]; exact hsorted
  have hij : i < j := by
    rcases lt_trichotomy i j with h | h | h
    · exact h
    · exfalso
      subst h
      rw [hgi] at hgj
      have : ki = kj := by
        have := congrArg Prod.fst hgj
        simpa using this
      omega
    · exfalso
      have hrel := List.Sorted.rel_get_of_lt hs2
        (a := ⟨j, by rw [List.length_map]; exact hj⟩)
        (b := ⟨i, by rw [List.length_map]; exact hi⟩) h
      simp only [List.get_eq_getElem, List.getElem_map] at hrel
      rw [hgi, hgj] at hrel
      simp at hrel
      omega
  have hpw : (reportHistogram s).Pairwise
      (fun a b => ∀ pa pb, a.2 = some pa → b.2 = some pb → pa < pb) :=
    annLoop_pairwise (fun m => Multiset.count m s.hist) s.req
      (sortedMilis s) 0 0
  have hrel := List.pairwise_iff_get.mp hpw ⟨i, hi⟩ ⟨j, hj⟩ hij
  refine hrel pi pj ?_ ?_
  · exact congrArg Prod.snd hgi
  · exact congrArg Prod.snd hgj

/-- C4 witness: in `histExample`, bucket 5 ms is annotated 50 and bucket
10 ms (a larger key) is annotated 99, and indeed 50 < 99. -/
theorem reportHistogram_percentile_monotonic_witness : (50 : ℕ) < 99 :=
  reportHistogram_percentile_monotonic histExample 0 1 5 10 50 99
    (by rw [reportHistogram, sortedMilis_histExample]; decide)
    (by rw [reportHistogram, sortedMilis_histExample]; decide)
    (by decide)

/-- One redirect hop observed during the preflight: the redirect
response's status code and the target URL it points to (the URL the
redirect-tracking callback records, gb.go line 156). -/
structure Hop where
  url : String
  status : Int
deriving DecidableEq

/-- The behaviour of the target once redirects stop: either the transport
fails or a final (non-redirect) response with a status code arrives. -/
inductive FinalResult where
  | transportError (msg : String)
  | response (status : Int)
deriving DecidableEq

/-- The error `checkRequest` returns (gb.go lines 166 and 170): the
transport error from `client.Do`, or the status text of a response with
code ≥ 400. -/
inductive CheckError where
  | transport (msg : String)
  | badStatus (status : Int)
deriving DecidableEq

/-- `checkRequest` (gb.go lines 152-174) with redirect-following enabled
(the default): the installed callback appends each redirect target URL to
`redirects`; as soon as 10 are recorded it returns
`http.ErrUseLastResponse`, so the client stops following and the 10th
redirect response itself becomes the final response; with fewer than 10
hops the chain runs to `final`.  A transport error, or a final status
≥ 400 (`http.StatusBadRequest`), is returned as an error. -/
def checkRequest (hops : List Hop) (final : FinalResult) :
    List String × Except CheckError Unit :=
  let redirects := (hops.take 10).map Hop.url
  let result : FinalResult :=
    if h : 10 ≤ hops.length then
      FinalResult.response (hops.get ⟨9, by omega⟩).status
    else final
  (redirects,
    match result with
    | .transportError msg => .error (.transport msg)
    | .response st => if 400 ≤ st then .error (.badStatus st) else .ok ())

/-- What `main` observably does around the preflight
(gb.go lines 619-636). -/
structure PreflightOutcome where
  exitCode : Option ℕ
  warning : Bool
  workersSpawned : ℕ
  workerStatsProduced : ℕ
deriving DecidableEq

/-- gb.go lines 619-636: run the preflight once; on error print the fatal
message and `os.Exit(1)` before the worker-spawn loop (so no worker is
spawned and no `stats` message is ever sent); otherwise print the redirect
warning when the recorded chain is nonempty, then spawn `parallel`
workers, each of which sends exactly one `stats` message. -/
def mainPreflight (hops : List Hop) (final : FinalResult) (parallel : ℕ) :
    PreflightOutcome :=
  match (checkRequest hops final).2 with
  | .error _ =>
      { exitCode := some 1, warning := false, workersSpawned := 0,
        workerStatsProduced := 0 }
  | .ok _ =>
      { exitCode := none,
        warning := !(checkRequest hops final).1.isEmpty,
        workersSpawned := parallel,
        workerStatsProduced := parallel }

/-- C8: the preflight is a single request whose failure is fatal before
any worker exists: if `checkRequest` errors, the process exits with code 1,
zero workers are spawned and zero `WorkerStats` are produced; a transport
error, or (below the redirect cap) a final status ≥ 400, is such an error;
the recorded redirect chain is the hop URLs capped at 10; once 10 hops are
recorded the 10th redirect response is accepted as the final response
(whatever lay beyond it); and on success the warning is emitted exactly
when the redirect chain is nonempty, with all `parallel` workers
spawned. -/
theorem checkRequest_preflight_gate (hops : List Hop) (final : FinalResult)
    (parallel : ℕ) :
    (∀ e, (checkRequest hops final).2 = .error e →
        mainPreflight hops final parallel
          = { exitCode := some 1, warning := false, workersSpawned := 0,
              workerStatsProduced := 0 })
    ∧ (∀ msg, final = .transportError msg → hops.length < 10 →
        (checkRequest hops final).2 = .error (.transport msg))
    ∧ (∀ st, final = .response st → 400 ≤ st → hops.length < 10 →
        (checkRequest hops final).2 = .error (.badStatus st))
    ∧ (checkRequest hops final).1 = (hops.take 10).map Hop.url
    ∧ (∀ final2, 10 ≤ hops.length →
        checkRequest hops final = checkRequest hops final2)
    ∧ ((checkRequest hops final).2 = .ok () →
        (mainPreflight hops final parallel).workersSpawned = parallel
        ∧ (mainPreflight hops final parallel).workerStatsProduced = parallel
        ∧ (mainPreflight hops final parallel).warning
            = !(checkRequest hops final).1.isEmpty
        ∧ (mainPreflight hops final parallel).exitCode = none) := by
  refine ⟨?_, ?_, ?_, rfl, ?_, ?_⟩
  · intro e he
    simp [mainPreflight, he]
  · intro msg hf hlen
    subst hf
    simp [checkRequest, dif_neg (by omega : ¬ 10 ≤ hops.length)]
  · intro st hf hst hlen
    subst hf
    simp [checkRequest, dif_neg (by omega : ¬ 10 ≤ hops.length),
      if_pos hst]
  · intro final2 h10
    simp [checkRequest, dif_pos h10]
  · intro hok
    simp [mainPreflight, hok]

/-- C8 witness: a preflight answered directly with HTTP 503 errors, exits
with code 1, spawns no worker and produces no `WorkerStats`. -/
theorem checkRequest_preflight_gate_witness :
    (checkRequest [] (.response 503)).2 = .error (.badStatus 503)
    ∧ mainPreflight [] (.response 503) 20
      = { exitCode := some 1, warning := false, workersSpawned := 0,
          workerStatsProduced := 0 } := by
  have h := checkRequest_preflight_gate [] (.response 503) 20
  have h1 := h.2.2.1 503 rfl (by norm_num) (by norm_num)
  exact ⟨h1, h.1 _ h1⟩

/-- The observable steps of `main` (gb.go lines 581-668) that matter for
the elapsed-time measurement, in source order. -/
inductive MainStep where
  | parseArgs            -- line 582
  | buildReq             -- line 613
  | preflightCheck       -- line 619
  | warnRedirects        -- line 624
  | setRlimit            -- line 628
  | spawnWorker (i : ℕ)  -- lines 633-636
  | startLive            -- line 639
  | startErrorReporter   -- line 641
  | startRampup          -- line 642
  | recordStart          -- line 644: t1 := time.Now()
  | waitStop             -- lines 650-653: timer or interrupt
  | broadcastStop        -- line 656: close(done)
  | recordElapsed        -- line 658: delta := time.Since(t1)
  | collect              -- line 659: collectStats(result, parallel)
  | report               -- line 660: reportStats(total, delta, histogram)
  | closeErrors          -- line 662
  | closeLive            -- line 664
  | writeMemProfile      -- line 667
deriving DecidableEq

/-- The step sequence of `main` for `parallel = p` workers, in the order
the statements execute (gb.go lines 581-668).  `delta`, recorded at
`recordElapsed`, is the duration later passed to `reportStats` as the
denominator of the rate/throughput/bandwidth computations. -/
def mainTrace (p : ℕ) : List MainStep :=
  [MainStep.parseArgs, MainStep.buildReq, MainStep.preflightCheck,
    MainStep.warnRedirects, MainStep.setRlimit]
  ++ ((List.range p).map MainStep.spawnWorker
  ++ [MainStep.startLive, MainStep.startErrorReporter, MainStep.startRampup,
      MainStep.recordStart, MainStep.waitStop, MainStep.broadcastStop,
      MainStep.recordElapsed, MainStep.collect, MainStep.report,
      MainStep.closeErrors, MainStep.closeLive, MainStep.writeMemProfile])

theorem getElem?_append_add {α : Type} (l₁ l₂ : List α) (k : ℕ) :
    (l₁ ++ l₂)[l₁.length + k]? = l₂[k]? := by
  rw [List.getElem?_append_right (by omega)]
  congr 1
  omega

/-- C5 counterexample: in `main`'s step sequence (here at the default
`parallel = 20`), `delta := time.Since(t1)` executes *before*
`collectStats` receives any `WorkerStats`, so the printed elapsed time is
not measured "until the last WorkerStats message has been received" as the
claim states. -/
theorem mainTrace_elapsed_counterexample :
    ¬ ((mainTrace 20).indexOf MainStep.collect
        < (mainTrace 20).indexOf MainStep.recordElapsed) := by
  decide

/-- C5 (amended): the elapsed time used in the final report is measured
from `t1`, taken just *after* the worker goroutines are spawned (every
`spawnWorker` precedes `recordStart`), until just *after* the stop signal
is broadcast and *before* any `WorkerStats` is collected
(`broadcastStop` < `recordElapsed` < `collect` < `report`); that `delta`
is the duration handed to `reportStats` as the denominator for rate,
throughput and bandwidth. -/
theorem mainTrace_elapsed_measurement (p i : ℕ) (hip : i < p) :
    (mainTrace p).length = 17 + p
    ∧ (mainTrace p)[2]? = some MainStep.preflightCheck
    ∧ (mainTrace p)[5 + i]? = some (MainStep.spawnWorker i)
    ∧ (mainTrace p)[8 + p]? = some MainStep.recordStart
    ∧ (mainTrace p)[10 + p]? = some MainStep.broadcastStop
    ∧ (mainTrace p)[11 + p]? = some MainStep.recordElapsed
    ∧ (mainTrace p)[12 + p]? = some MainStep.collect
    ∧ (mainTrace p)[13 + p]? = some MainStep.report := by
  have hC : ∀ k, (mainTrace p)[5 + (p + k)]? =
      [MainStep.startLive, MainStep.startErrorReporter, MainStep.startRampup,
        MainStep.recordStart, MainStep.waitStop, MainStep.broadcastStop,
        MainStep.recordElapsed, MainStep.collect, MainStep.report,
        MainStep.closeErrors, MainStep.closeLive,
        MainStep.writeMemProfile][k]? := by
    intro k
    calc (mainTrace p)[5 + (p + k)]?
        = ((List.range p).map MainStep.spawnWorker ++ _)[p + k]? :=
          getElem?_append_add _ _ (p + k)
      _ = _ := by
          rw [show p + k
              = ((List.range p).map MainStep.spawnWorker).length + k by simp]
          exact getElem?_append_add _ _ k
  refine ⟨?_, rfl, ?_, ?_, ?_, ?_, ?_, ?_⟩
  · simp only [mainTrace, List.length_append, List.length_map,
      List.length_range, List.length_cons, List.length_nil]
    omega
  · calc (mainTrace p)[5 + i]?
        = ((List.range p).map MainStep.spawnWorker ++ _)[i]? :=
          getElem?_append_add _ _ i
      _ = some (MainStep.spawnWorker i) := by
          rw [List.getElem?_append_left (by simpa using hip),
            List.getElem?_map, List.getElem?_range hip]
          rfl
  · rw [show 8 + p = 5 + (p + 3) by omega, hC 3]
    decide
  · rw [show 10 + p = 5 + (p + 5) by omega, hC 5]
    decide
  · rw [show 11 + p = 5 + (p + 6) by omega, hC 6]
    decide
  · rw [show 12 + p = 5 + (p + 7) by omega, hC 7]
    decide
  · rw [show 13 + p = 5 + (p + 8) by omega, hC 8]
    decide

/-- C5 witness: the step positions at the default 20 workers. -/
theorem mainTrace_elapsed_measurement_witness :
    (mainTrace 20).length = 37
    ∧ (mainTrace 20)[5]? = some (MainStep.spawnWorker 0)
    ∧ (mainTrace 20)[28]? = some MainStep.recordStart
    ∧ (mainTrace 20)[30]? = some MainStep.broadcastStop
    ∧ (mainTrace 20)[31]? = some MainStep.recordElapsed
    ∧ (mainTrace 20)[32]? = some MainStep.collect
    ∧ (mainTrace 20)[33]? = some MainStep.report := by
  have h := mainTrace_elapsed_measurement 20 0 (by norm_num)
  exact ⟨h.1, h.2.2.1, h.2.2.2.1, h.2.2.2.2.1, h.2.2.2.2.2.1,
    h.2.2.2.2.2.2.1, h.2.2.2.2.2.2.2⟩

end GB
